import Mathlib

set_option maxHeartbeats 1000000
set_option maxRecDepth 16384

/-!
Shallow embedding of the ingestion / chunking / retrieval core of the
meaCreator backend (files `backend/rag_index.py`, `backend/retriever.py`,
`backend/ingest.py` and the retrieval helper of `backend/main.py`).

Modelling conventions:
* Python `int` is `Int`; character counts are `Nat` cast to `Int` where the
  source compares them with configuration integers.
* Python strings are `String`; `str.strip()` / `str.rstrip()` are modelled on
  `List Char` via `Char.isWhitespace` (covering space, tab, CR, LF — Python
  additionally strips a few rarer whitespace code points, which no claim
  depends on).
* External capabilities are parameters: the SHA-256 digest is a parameter
  `sha : List Nat → String`, UTF-8 encoding a parameter `enc : String → List Nat`,
  the embedding provider a parameter `embedQ : String → List Int` (standing for
  `embed_query` composed with its L2 normalisation, which is a positive
  rescaling), and the row L2 normalisation of `SimpleIndex.__init__` a
  parameter `l2n : List Int → List Int` (the true one divides by `‖v‖₂ + 1e-8`,
  which is irrational; no claim depends on the numeric values).
* Vector components are `Int` in place of IEEE floats; the claims under
  study concern selection, ordering, lengths and structure, never the
  numeric value of a score, so any linearly ordered ring of components
  gives a faithful model.
-/

/-- Python's whitespace test used by `str.strip()` (space, tab, CR, LF). -/
def wsChar (c : Char) : Bool := c.isWhitespace

/-- Core of Python `str.strip()` on the character list. -/
def stripChars (l : List Char) : List Char :=
  ((l.dropWhile wsChar).reverse.dropWhile wsChar).reverse

/-- Python `s.strip()`. -/
def pyStrip (s : String) : String := String.mk (stripChars s.data)

/-- Python `s.rstrip()`. -/
def pyRstrip (s : String) : String :=
  String.mk ((s.data.reverse.dropWhile wsChar).reverse)

/-- Python `s[:b]` for a nonnegative bound `b`. -/
def pyTake (s : String) (b : Int) : String := String.mk (s.data.take b.toNat)

/-- Python `sep.join(l)`. -/
def pyJoin (sep : String) : List String → String
  | [] => ""
  | [s] => s
  | s :: t :: r => s ++ sep ++ pyJoin sep (t :: r)

/-- `"\n".join(l)`, the paragraph joiner of `pack_chunks`. -/
def joinNL (l : List String) : String := pyJoin ("\n") l

/-- `rag_index.CHARS_PER_TOKEN`: ~4 chars ≈ 1 token. -/
def CHARS_PER_TOKEN : Int := 4

/-- Running window length bookkeeping of `pack_chunks`: the Python `cur_len`
always equals `sum(len(x) + 1 for x in cur)`. -/
def curLenOf (l : List String) : Int :=
  (l.map (fun s => (s.length : Int) + 1)).sum

/-- The tail-overlap collection loop of `pack_chunks` (`for seg in
reversed(cur): carry.append(seg); carry_len += len(seg)+1; if carry_len >=
overlap_chars: break`), expressed on the already reversed window with the
running `carry_len` as accumulator `a`. -/
def carryRev (oc : Int) (a : Int) : List String → List String
  | [] => []
  | seg :: rest =>
    if oc ≤ a + seg.length + 1 then [seg]
    else seg :: carryRev oc (a + seg.length + 1) rest

/-- The main loop of `pack_chunks`, producing the chunks still as paragraph
lists.  `cur` is the running window; a chunk is flushed when appending the
next paragraph would exceed `tc` and the window is nonempty, and the new
window is seeded with the tail overlap of the flushed one. -/
def packLoop (tc oc : Int) : List String → List String → List (List String)
  | [], cur => if cur.isEmpty then [] else [cur]
  | p :: ps, cur =>
    if cur ≠ [] ∧ curLenOf cur + p.length + 1 > tc then
      cur :: packLoop tc oc ps ((carryRev oc 0 cur.reverse).reverse ++ [p])
    else
      packLoop tc oc ps (cur ++ [p])

/-- `rag_index.pack_chunks(parts, target_tokens, overlap_tokens)`. -/
def pack_chunks (parts : List String) (target_tokens overlap_tokens : Int) :
    List String :=
  ((packLoop (max 200 (target_tokens * CHARS_PER_TOKEN))
      (max 0 (overlap_tokens * CHARS_PER_TOKEN)) parts []).map
    (fun c => pyStrip (joinNL c))).filter (fun s => s ≠ "")

/-- Grouping loop of `rag_index.split_paragraphs`: consecutive lines with
nonblank content form one group; blank lines close the current group. -/
def spGroups : List String → List String → List (List String)
  | [], buf => if buf.isEmpty then [] else [buf]
  | ln :: rest, buf =>
    if pyStrip ln ≠ "" then spGroups rest (buf ++ [ln])
    else if buf.isEmpty then spGroups rest [] else buf :: spGroups rest []

/-- `rag_index.split_paragraphs(text)`.  Python's `str.splitlines()` is
modelled as splitting on `"\n"`; the extra terminators it recognises and its
treatment of a trailing newline only produce additional blank lines, which
the grouping discards. -/
def split_paragraphs (text : String) : List String :=
  ((spGroups ((text.splitOn ("\n")).map pyRstrip) []).map
    (fun g => pyStrip (pyJoin (" ") g))).filter (fun p => p ≠ "")

/-- `rag_index._doc_stable_id(path, file_sha256)` =
`sha256_bytes((str(path.resolve()) + "|" + file_sha256).encode("utf-8"))`,
with the SHA-256 digest `sha` and the UTF-8 encoding `enc` as parameters
(`resolvedPath` stands for `str(path.resolve())`). -/
def doc_stable_id (sha : List Nat → String) (enc : String → List Nat)
    (resolvedPath fileSha : String) : String :=
  sha (enc (resolvedPath ++ "|" ++ fileSha))

/-- `rag_index.IngestedChunk`. -/
structure IngestedChunk where
  id : String
  doc_id : String
  doc_title : String
  kind : String
  path : String
  text : String
deriving DecidableEq

/-- Python `ext.lstrip(".")`. -/
def lstripDot (s : String) : String :=
  String.mk (s.data.dropWhile (fun c => c = '.'))

/-- One enumerated file of `rag_index.walk_docs`, together with the outcome
of `parse_doc` on it (the parsers wrap the external PDF/DOCX libraries, so
the extracted `(full_text, sha256)` — or the raised error — is data here).
`resolved` stands for `str(path.resolve())` and `stem` for `path.stem`. -/
structure DocEntry where
  path : String
  resolved : String
  stem : String
  ext : String
  parsed : Except String (String × String)

/-- The per-document body of the `ingest_folder` loop: a parse failure is
logged and skipped (yielding no chunks), otherwise the text is split,
packed, and the chunks receive ids `sha256(f"{doc_id}:{i}")`. -/
def docChunks (sha : List Nat → String) (enc : String → List Nat)
    (target_tokens overlap_tokens : Int) (f : DocEntry) : List IngestedChunk :=
  match f.parsed with
  | .error _ => []
  | .ok (full_text, fsha) =>
    let doc_id := doc_stable_id sha enc f.resolved fsha
    let parts := split_paragraphs full_text
    let packed := pack_chunks parts target_tokens overlap_tokens
    packed.enum.map (fun pr =>
      { id := sha (enc (doc_id ++ ":" ++ toString pr.1))
        doc_id := doc_id
        doc_title := f.stem
        kind := lstripDot f.ext
        path := f.path
        text := pr.2 })

/-- `rag_index.ingest_folder`, over the already-enumerated file list. -/
def ingest_folder (sha : List Nat → String) (enc : String → List Nat)
    (target_tokens overlap_tokens : Int) : List DocEntry → List IngestedChunk
  | [] => []
  | f :: rest =>
    docChunks sha enc target_tokens overlap_tokens f ++
      ingest_folder sha enc target_tokens overlap_tokens rest

/-- `retriever.IndexRecord`. -/
structure IndexRecord where
  id : String
  doc_id : String
  doc_title : String
  kind : String
  path : String
  text : String
  vector : List Int
deriving DecidableEq

/-- Placeholder record for the (never exercised) out-of-range branch of
`List.getD` in the search model. -/
def defaultRec : IndexRecord := ⟨"", "", "", "", "", "", []⟩

/-- `retriever.SimpleIndex`: the records and the row matrix `self.mat`. -/
structure SimpleIndex where
  records : List IndexRecord
  mat : List (List Int)
deriving DecidableEq

/-- `SimpleIndex.__init__`: stack the record vectors and L2-normalise each
row (the normalisation, `v ↦ v / (‖v‖₂ + 1e-8)`, is the parameter `l2n`).
For an empty record list the source sets `self.mat = np.zeros((0, 1))`,
i.e. a matrix with zero rows, here the empty list. -/
def SimpleIndex.init (l2n : List Int → List Int) (records : List IndexRecord) :
    SimpleIndex :=
  { records := records, mat := records.map (fun r => l2n r.vector) }

/-- `SimpleIndex.size`. -/
def SimpleIndex.size (s : SimpleIndex) : Nat := s.records.length

/-- A JSON object parsed from one line of the index file: each required
field is present (`some`) or absent (`none`). -/
structure RawRec where
  id : Option String
  doc_id : Option String
  doc_title : Option String
  kind : Option String
  path : Option String
  text : Option String
  vector : Option (List Int)
deriving DecidableEq

/-- Python `obj[name]`: a missing key raises `KeyError`. -/
def getField {α : Type} (name : String) : Option α → Except String α
  | some a => .ok a
  | none => .error ("KeyError: " ++ name)

/-- The per-line body of `SimpleIndex.from_jsonl`: the source evaluates
`obj["vector"]` first (line 47) and then the remaining fields in keyword
order, raising `KeyError` at the first missing one. -/
def recordOfRaw (r : RawRec) : Except String IndexRecord := do
  let vec ← getField ("vector") r.vector
  let i ← getField ("id") r.id
  let d ← getField ("doc_id") r.doc_id
  let dt ← getField ("doc_title") r.doc_title
  let k ← getField ("kind") r.kind
  let p ← getField ("path") r.path
  let t ← getField ("text") r.text
  pure ⟨i, d, dt, k, p, t, vec⟩

/-- The record-accumulating loop of `from_jsonl` (`for line in f: ...
recs.append(...)`): the first raised `KeyError` aborts the whole load. -/
def loadRecs : List RawRec → Except String (List IndexRecord)
  | [] => .ok []
  | r :: rest => do
    let rec1 ← recordOfRaw r
    let rest1 ← loadRecs rest
    pure (rec1 :: rest1)

/-- `SimpleIndex.from_jsonl(path)`: `none` models a path whose file does not
exist (`return cls([])`); `some lines` models the parsed JSON objects of the
file's nonblank lines.  Any raised `KeyError` propagates out of the load. -/
def fromJsonl (l2n : List Int → List Int) :
    Option (List RawRec) → Except String SimpleIndex
  | none => .ok (SimpleIndex.init l2n [])
  | some lines => do
    let recs ← loadRecs lines
    pure (SimpleIndex.init l2n recs)

/-- Dot product of two vectors, the rowwise content of `self.mat @ q`. -/
def dot (a b : List Int) : Int := (List.zipWith (· * ·) a b).sum

/-- `sims = self.mat @ q`. -/
def simsOf (mat : List (List Int)) (q : List Int) : List Int :=
  mat.map (fun row => dot row q)

/-- Ranking relation on row indices: higher similarity first, exact ties by
original index.  `np.argpartition(-sims, k-1)[:k]` followed by
`argsort(-sims[idx])` returns the `k` top-scoring indices in descending
score order with an unspecified order among exact ties; this relation is one
conforming tie-break (the claims assert nothing about tie order). -/
def rankRel (sims : List Int) (i j : Nat) : Prop :=
  sims.getD j 0 < sims.getD i 0 ∨ (sims.getD i 0 = sims.getD j 0 ∧ i ≤ j)

instance (sims : List Int) : DecidableRel (rankRel sims) := fun i j => by
  unfold rankRel; infer_instance

instance (sims : List Int) : IsTotal Nat (rankRel sims) := by
  constructor
  intro i j
  rcases lt_trichotomy (sims.getD i 0) (sims.getD j 0) with h | h | h
  · exact Or.inr (Or.inl h)
  · rcases Nat.le_total i j with hij | hij
    · exact Or.inl (Or.inr ⟨h, hij⟩)
    · exact Or.inr (Or.inr ⟨h.symm, hij⟩)
  · exact Or.inl (Or.inl h)

instance (sims : List Int) : IsTrans Nat (rankRel sims) := by
  constructor
  intro a b c hab hbc
  rcases hab with h1 | ⟨e1, l1⟩
  · rcases hbc with h2 | ⟨e2, l2⟩
    · exact Or.inl (h2.trans h1)
    · exact Or.inl (e2 ▸ h1)
  · rcases hbc with h2 | ⟨e2, l2⟩
    · exact Or.inl (e1 ▸ h2)
    · exact Or.inr ⟨e1.trans e2, l1.trans l2⟩

/-- The index selection `np.argpartition(-sims, k-1)[:k]` reordered by
`np.argsort(-sims[idx])`: the first `k` indices of a full descending sort. -/
def topKIdx (sims : List Int) (k : Nat) : List Nat :=
  (List.insertionSort (rankRel sims) (List.range sims.length)).take k

/-- `SimpleIndex.search_with_scores(query, embedder, top_k)`.  `embedQ`
stands for `embedder.embed_query` composed with the query L2 normalisation
`q ↦ q / (‖q‖ + 1e-8)` (a positive rescaling of the scores). -/
def searchWithScores (idx : SimpleIndex) (query : String)
    (embedQ : String → List Int) (top_k : Nat) :
    List IndexRecord × List Int :=
  if idx.mat.length = 0 then ([], [])
  else
    ((topKIdx (simsOf idx.mat (embedQ query))
        (min top_k (simsOf idx.mat (embedQ query)).length)).map
      (fun i => idx.records.getD i defaultRec),
     (topKIdx (simsOf idx.mat (embedQ query))
        (min top_k (simsOf idx.mat (embedQ query)).length)).map
      (fun i => (simsOf idx.mat (embedQ query)).getD i 0))

/-- The deduplication loop of `main.build_context_block`: keep the first
record per `doc_title` (`seen` is the set of titles already taken). -/
def dedupByTitle : List IndexRecord → List String → List IndexRecord
  | [], _ => []
  | r :: rs, seen =>
    if r.doc_title ∈ seen then dedupByTitle rs seen
    else r :: dedupByTitle rs (r.doc_title :: seen)

/-- The snippet taken for one candidate by `build_context_block`
(`snippet = r.text; if len(snippet) > budget: snippet = snippet[:budget]`). -/
def snippetOf (r : IndexRecord) (budget : Int) : String :=
  if (r.text.length : Int) > budget then pyTake r.text budget else r.text

/-- The character-budget walk of `main.build_context_block`: stop once the
budget is exhausted, truncate a snippet that would exceed the remaining
budget, and subtract each included snippet's length. -/
def budgetWalk : List IndexRecord → Int → List (IndexRecord × String)
  | [], _ => []
  | r :: rs, budget =>
    if budget ≤ 0 then []
    else (r, snippetOf r budget) ::
      budgetWalk rs (budget - (snippetOf r budget).length)

/-- The section formatting `f"### {r.doc_title} ({r.kind})\n{snippet}"`. -/
def sectionOf (r : IndexRecord) (snippet : String) : String :=
  "### " ++ r.doc_title ++ " (" ++ r.kind ++ ")\n" ++ snippet

/-- `main.build_context_block(query)`, with the module globals `_index`,
`_embedder`, `TOP_K` and `MAX_CONTEXT_CHARS` as parameters (the `_index is
None` startup guard is outside the model: the index parameter is always
present). -/
def buildContextBlock (idx : SimpleIndex) (query : String)
    (embedQ : String → List Int) (topK : Nat) (maxContextChars : Int) :
    String × List String :=
  if idx.size = 0 ∨ pyStrip query = "" then ("", [])
  else if dedupByTitle ((searchWithScores idx query embedQ topK).1) [] = []
    then ("", [])
  else
    ("## Context Materials\n\n" ++
      pyJoin ("\n\n---\n\n")
        ((budgetWalk (dedupByTitle ((searchWithScores idx query embedQ topK).1) [])
            maxContextChars).map
          (fun pr => sectionOf pr.1 pr.2)),
     (dedupByTitle ((searchWithScores idx query embedQ topK).1) []).map
       (fun r => r.doc_title))

/-- The deduplicated candidate list feeding the budget walk of
`build_context_block` (empty when the guards short-circuit). -/
def pickedOf (idx : SimpleIndex) (query : String)
    (embedQ : String → List Int) (topK : Nat) : List IndexRecord :=
  if idx.size = 0 ∨ pyStrip query = "" then []
  else dedupByTitle ((searchWithScores idx query embedQ topK).1) []

/-- The `(record, snippet)` pairs actually included as sections by
`build_context_block`. -/
def contextSections (idx : SimpleIndex) (query : String)
    (embedQ : String → List Int) (topK : Nat) (maxContextChars : Int) :
    List (IndexRecord × String) :=
  budgetWalk (pickedOf idx query embedQ topK) maxContextChars

/-- 100 copies of `'a'`: a paragraph well under the minimum 200-char window. -/
def aChar100 : String := String.mk (List.replicate 100 'a')

/-- 10 copies of `'a'`. -/
def aChar10 : String := String.mk (List.replicate 10 'a')

/-- Three short paragraphs driving the overlap carry of `pack_chunks`. -/
def parts100 : List String := [aChar100, aChar100, aChar10]

/-- Sample record, title `A`, 6-char text, unit vector `[1,0]`. -/
def recA : IndexRecord := ⟨"1", "d1", "A", "pdf", "pA", "hello!", [1, 0]⟩

/-- Sample record, title `B`, 1-char text, unit vector `[0,1]`. -/
def recB : IndexRecord := ⟨"2", "d2", "B", "pdf", "pB", "x", [0, 1]⟩

/-- Sample record for the blank-query search counterexample. -/
def recC : IndexRecord := ⟨"3", "d3", "C", "pdf", "pC", "t", [1]⟩

/-- Demonstration encoding (injective): code points of the characters. -/
def encDemo (s : String) : List Nat := s.data.map Char.toNat

/-- Demonstration digest: pointwise `Char.ofNat` (a left inverse of
`encDemo`, hence collision-free on every encoded string). -/
def shaDemo (bs : List Nat) : String := String.mk (bs.map Char.ofNat)

/-- A parsed index line whose `id` field is missing. -/
def rawBad : RawRec :=
  ⟨none, some ("d"), some ("t"), some ("k"), some ("p"), some ("x"), some [1]⟩

/-- A document whose extraction succeeded. -/
def docGood : DocEntry := ⟨"g.pdf", "/abs/g.pdf", "g", ".pdf", .ok ("hello world", "shaG")⟩

/-- A document whose extraction raised. -/
def docBad : DocEntry := ⟨"b.pdf", "/abs/b.pdf", "b", ".pdf", .error ("boom")⟩

/-! ### Generic helper lemmas -/

/-- Two strings with the same character data are equal. -/
theorem str_data_inj {a b : String} (h : a.data = b.data) : a = b := by
  cases a; cases b; cases h; rfl

/-- Character data of an appended string. -/
theorem str_append_data (a b : String) : (a ++ b).data = a.data ++ b.data := rfl

/-- String append is left-cancellative. -/
theorem str_append_cancel_left (a x y : String) (h : a ++ x = a ++ y) : x = y := by
  apply str_data_inj
  have hd := congrArg String.data h
  rw [str_append_data, str_append_data] at hd
  exact List.append_cancel_left hd

/-- A string with empty data is the empty string. -/
theorem str_eq_empty_of_data (s : String) (h : s.data = []) : s = "" := by
  cases s
  simp only at h
  subst h
  rfl

/-- `shaDemo` is a left inverse of `encDemo` (so the demonstration digest is
collision-free on encoded strings). -/
theorem shaDemo_encDemo (s : String) : shaDemo (encDemo s) = s := by
  apply str_data_inj
  show (s.data.map Char.toNat).map Char.ofNat = s.data
  rw [List.map_map]
  have : ∀ c ∈ s.data, (Char.ofNat ∘ Char.toNat) c = id c := by
    intro c _
    simp [Char.ofNat_toNat]
  rw [List.map_congr_left this, List.map_id]

/-! ### C7 -/

/-- C7: `docId` is a pure function of the resolved absolute path and the
content hash: re-ingesting identical bytes at an identical path gives the
same `docId`, and different bytes (hence, by the collision-freeness
hypotheses on the digest, a different content hash) give a different
`docId`. -/
theorem doc_stable_id_pure (sha : List Nat → String) (enc : String → List Nat)
    (resolvedPath : String) (b1 b2 : List Nat)
    (hsha : b1 ≠ b2 → sha b1 ≠ sha b2)
    (hid : ∀ s t : String, s ≠ t → sha (enc s) ≠ sha (enc t)) :
    (b1 = b2 →
      doc_stable_id sha enc resolvedPath (sha b1) =
        doc_stable_id sha enc resolvedPath (sha b2)) ∧
    (b1 ≠ b2 →
      doc_stable_id sha enc resolvedPath (sha b1) ≠
        doc_stable_id sha enc resolvedPath (sha b2)) := by
  constructor
  · intro h
    rw [h]
  · intro hne
    have h1 : sha b1 ≠ sha b2 := hsha hne
    have h2 : resolvedPath ++ "|" ++ sha b1 ≠ resolvedPath ++ "|" ++ sha b2 :=
      fun he => h1 (str_append_cancel_left _ _ _ he)
    exact hid _ _ h2

/-- Witness for C7 at the demonstration digest and two distinct byte
strings. -/
theorem doc_stable_id_pure_witness :
    doc_stable_id shaDemo encDemo ("p") (shaDemo [0]) ≠
      doc_stable_id shaDemo encDemo ("p") (shaDemo [1]) :=
  (doc_stable_id_pure shaDemo encDemo ("p") [0] [1]
    (fun _ => by decide)
    (fun s t hst he => hst (by rwa [shaDemo_encDemo, shaDemo_encDemo] at he))).2
    (by decide)

/-! ### C8 -/

/-- C8: a document whose extraction raised is skipped, and `ingest_folder`
returns exactly the chunks of the remaining documents — one failing
document neither aborts the run nor disturbs any other document's chunks. -/
theorem ingest_folder_isolates_failures (sha : List Nat → String)
    (enc : String → List Nat) (t o : Int) (pre post : List DocEntry)
    (bad : DocEntry) (msg : String) (hbad : bad.parsed = .error msg) :
    ingest_folder sha enc t o (pre ++ bad :: post) =
      ingest_folder sha enc t o (pre ++ post) := by
  induction pre with
  | nil =>
    show ingest_folder sha enc t o (bad :: post) = ingest_folder sha enc t o post
    have hskip : docChunks sha enc t o bad = [] := by
      unfold docChunks
      rw [hbad]
    rw [ingest_folder, hskip, List.nil_append]
  | cons f fs ih =>
    show ingest_folder sha enc t o (f :: (fs ++ bad :: post)) =
      ingest_folder sha enc t o (f :: (fs ++ post))
    rw [ingest_folder, ingest_folder, ih]

/-- Witness for C8: dropping a failing document leaves the good document's
chunks. -/
theorem ingest_folder_isolates_failures_witness :
    ingest_folder shaDemo encDemo 1000 120 [docGood, docBad] =
      ingest_folder shaDemo encDemo 1000 120 [docGood] :=
  ingest_folder_isolates_failures shaDemo encDemo 1000 120 [docGood] [] docBad
    ("boom") rfl

/-! ### C9 -/

/-- A successfully parsed record line has all seven required fields. -/
theorem recordOfRaw_ok_fields (r : RawRec) (rec : IndexRecord)
    (h : recordOfRaw r = .ok rec) :
    r.id.isSome ∧ r.doc_id.isSome ∧ r.doc_title.isSome ∧ r.kind.isSome ∧
      r.path.isSome ∧ r.text.isSome ∧ r.vector.isSome := by
  cases hvec : r.vector with
  | none => simp [recordOfRaw, hvec, getField, Bind.bind, Except.bind] at h
  | some vec =>
  cases hid : r.id with
  | none => simp [recordOfRaw, hvec, hid, getField, Bind.bind, Except.bind] at h
  | some i =>
  cases hd : r.doc_id with
  | none => simp [recordOfRaw, hvec, hid, hd, getField, Bind.bind, Except.bind] at h
  | some d =>
  cases hdt : r.doc_title with
  | none => simp [recordOfRaw, hvec, hid, hd, hdt, getField, Bind.bind, Except.bind] at h
  | some dt =>
  cases hk : r.kind with
  | none => simp [recordOfRaw, hvec, hid, hd, hdt, hk, getField, Bind.bind, Except.bind] at h
  | some k =>
  cases hp : r.path with
  | none => simp [recordOfRaw, hvec, hid, hd, hdt, hk, hp, getField, Bind.bind, Except.bind] at h
  | some p =>
  cases ht : r.text with
  | none => simp [recordOfRaw, hvec, hid, hd, hdt, hk, hp, ht, getField, Bind.bind, Except.bind] at h
  | some t => simp [hvec, hid, hd, hdt, hk, hp, ht]

/-- A line missing any required field makes the whole record loop raise. -/
theorem loadRecs_error_of_mem (l : List RawRec) (r : RawRec) (hmem : r ∈ l)
    (hrec : ∃ m, recordOfRaw r = .error m) : ∃ m, loadRecs l = .error m := by
  induction l with
  | nil => cases hmem
  | cons a t ih =>
    rcases List.mem_cons.mp hmem with rfl | hm
    · obtain ⟨m, hm2⟩ := hrec
      exact ⟨m, by simp [loadRecs, hm2, Bind.bind, Except.bind]⟩
    · cases hra : recordOfRaw a with
      | error m => exact ⟨m, by simp [loadRecs, hra, Bind.bind, Except.bind]⟩
      | ok v =>
        obtain ⟨m, hm2⟩ := ih hm
        exact ⟨m, by
          simp [loadRecs, hra, hm2, Bind.bind, Except.bind, Functor.map, Except.map]⟩

/-- C9: loading from an absent file yields a valid empty index of size 0,
while a persisted line missing a required field makes the load raise
(rather than silently skipping the record). -/
theorem from_jsonl_missing_file_and_fields (l2n : List Int → List Int)
    (lines : List RawRec) (raw : RawRec) (hmem : raw ∈ lines)
    (hmiss : raw.id = none ∨ raw.doc_id = none ∨ raw.doc_title = none ∨
      raw.kind = none ∨ raw.path = none ∨ raw.text = none ∨
      raw.vector = none) :
    (fromJsonl l2n none = .ok (SimpleIndex.init l2n []) ∧
      (SimpleIndex.init l2n []).size = 0) ∧
    ∃ msg, fromJsonl l2n (some lines) = .error msg := by
  refine ⟨⟨rfl, rfl⟩, ?_⟩
  have hrec : ∃ m, recordOfRaw raw = .error m := by
    cases hr : recordOfRaw raw with
    | error m => exact ⟨m, rfl⟩
    | ok rec =>
      obtain ⟨h1, h2, h3, h4, h5, h6, h7⟩ := recordOfRaw_ok_fields raw rec hr
      rcases hmiss with h | h | h | h | h | h | h <;> simp_all
  obtain ⟨m, hm⟩ := loadRecs_error_of_mem lines raw hmem hrec
  exact ⟨m, by simp [fromJsonl, hm, Bind.bind, Except.bind]⟩

/-- Witness for C9: a single line lacking `id` makes the load raise, while
the absent-file load is the empty index. -/
theorem from_jsonl_missing_file_and_fields_witness :
    (fromJsonl (fun v => v) none = .ok (SimpleIndex.init (fun v => v) []) ∧
      (SimpleIndex.init (fun v => v) []).size = 0) ∧
    ∃ msg, fromJsonl (fun v => v) (some [rawBad]) = .error msg :=
  from_jsonl_missing_file_and_fields (fun v => v) [rawBad] rawBad
    (List.mem_singleton.mpr rfl) (Or.inl rfl)

/-! ### C4 -/

/-- C4 counterexample: on a one-record index a blank query is still
searched — `search_with_scores` has no blank-query check (that guard lives
only in `build_context_block`), so it returns a record instead of the empty
sequence the claim asserts. -/
theorem search_blank_query_cex :
    pyStrip (" ") = "" ∧
    (searchWithScores (SimpleIndex.init (fun v => v) [recC]) (" ")
      (fun _ => [(1 : Int)]) 8).1 = [recC] := by decide

/-- C4 (amended): `search_with_scores` returns the empty result on an index
with zero rows, and does so for every embedding provider (so the provider
is not consulted); the blank-query empty result is enforced one layer up by
`build_context_block`, which returns an empty block and source list for a
blank query, again independently of the provider. -/
theorem search_empty_blank_amended (idx idx2 : SimpleIndex) (q q2 : String)
    (e1 e2 : String → List Int) (k : Nat) (B : Int) :
    (idx.mat = [] →
      searchWithScores idx q e1 k = ([], []) ∧
      searchWithScores idx q e1 k = searchWithScores idx q e2 k) ∧
    (pyStrip q2 = "" →
      buildContextBlock idx2 q2 e1 k B = ("", []) ∧
      buildContextBlock idx2 q2 e1 k B = buildContextBlock idx2 q2 e2 k B) := by
  constructor
  · intro hmat
    have h1 : searchWithScores idx q e1 k = ([], []) := by
      unfold searchWithScores
      rw [hmat]
      simp
    have h2 : searchWithScores idx q e2 k = ([], []) := by
      unfold searchWithScores
      rw [hmat]
      simp
    exact ⟨h1, h1.trans h2.symm⟩
  · intro hq
    have h1 : buildContextBlock idx2 q2 e1 k B = ("", []) := by
      unfold buildContextBlock
      rw [hq]
      simp
    have h2 : buildContextBlock idx2 q2 e2 k B = ("", []) := by
      unfold buildContextBlock
      rw [hq]
      simp
    exact ⟨h1, h1.trans h2.symm⟩

/-- Witness for C4 (amended): the zero-row index gives an empty search
result, and a blank query gives an empty context and source list. -/
theorem search_empty_blank_amended_witness :
    searchWithScores (SimpleIndex.init (fun v => v) []) ("q")
      (fun _ => [(1 : Int)]) 3 = ([], []) ∧
    buildContextBlock (SimpleIndex.init (fun v => v) [recC]) (" ")
      (fun _ => [(1 : Int)]) 3 100 = ("", []) :=
  ⟨((search_empty_blank_amended (SimpleIndex.init (fun v => v) [])
      (SimpleIndex.init (fun v => v) [recC]) ("q") (" ")
      (fun _ => [(1 : Int)]) (fun _ => [(2 : Int)]) 3 100).1 rfl).1,
   ((search_empty_blank_amended (SimpleIndex.init (fun v => v) [])
      (SimpleIndex.init (fun v => v) [recC]) ("q") (" ")
      (fun _ => [(1 : Int)]) (fun _ => [(2 : Int)]) 3 100).2 (by decide)).1⟩

/-! ### C2 and C3: context assembly -/

/-- The records of the budget walk form an initial segment of the walked
candidate list. -/
theorem budgetWalk_fst_decomp (l : List IndexRecord) (b : Int) :
    ∃ t, l = (budgetWalk l b).map (fun pr => pr.1) ++ t := by
  induction l generalizing b with
  | nil => exact ⟨[], by simp [budgetWalk]⟩
  | cons r rs ih =>
    by_cases hb : b ≤ 0
    · exact ⟨r :: rs, by simp [budgetWalk, hb]⟩
    · obtain ⟨t, ht⟩ := ih (b - (snippetOf r b).length)
      refine ⟨t, ?_⟩
      simp only [budgetWalk, if_neg hb, List.map_cons, List.cons_append]
      exact congrArg (r :: ·) ht

/-- The snippet lengths of the budget walk sum to at most the budget. -/
theorem budgetWalk_sum_le (l : List IndexRecord) (b : Int) (hb : 0 ≤ b) :
    ((budgetWalk l b).map (fun pr => (pr.2.length : Int))).sum ≤ b := by
  induction l generalizing b with
  | nil => simpa [budgetWalk] using hb
  | cons r rs ih =>
    by_cases hb0 : b ≤ 0
    · simpa [budgetWalk, hb0] using hb
    · have hsnip : ((snippetOf r b).length : Int) ≤ b := by
        unfold snippetOf
        split
        · next hgt =>
          show ((pyTake r.text b).length : Int) ≤ b
          have : (pyTake r.text b).length = min b.toNat r.text.length := by
            show (r.text.data.take b.toNat).length = min b.toNat r.text.length
            rw [List.length_take]
            rfl
          rw [this]
          have h1 : min b.toNat r.text.length ≤ b.toNat := Nat.min_le_left _ _
          calc ((min b.toNat r.text.length : Nat) : Int)
              ≤ (b.toNat : Int) := by exact_mod_cast h1
            _ = b := Int.toNat_of_nonneg hb
        · next hgt => omega
      have hrest := ih (b - (snippetOf r b).length) (by omega)
      simp only [budgetWalk, if_neg hb0, List.map_cons, List.sum_cons]
      omega

/-- Every snippet of the budget walk is an initial segment of its record's
text. -/
theorem budgetWalk_snippet_front (l : List IndexRecord) (b : Int) :
    ∀ pr ∈ budgetWalk l b, ∃ t2, pr.1.text = pr.2 ++ t2 := by
  induction l generalizing b with
  | nil => simp [budgetWalk]
  | cons r rs ih =>
    intro pr hpr
    by_cases hb0 : b ≤ 0
    · simp [budgetWalk, hb0] at hpr
    · simp only [budgetWalk, if_neg hb0, List.mem_cons] at hpr
      rcases hpr with rfl | hpr
      · show ∃ t2, r.text = snippetOf r b ++ t2
        unfold snippetOf
        split
        · refine ⟨String.mk (r.text.data.drop b.toNat), ?_⟩
          apply str_data_inj
          rw [str_append_data]
          show r.text.data = r.text.data.take b.toNat ++ r.text.data.drop b.toNat
          rw [List.take_append_drop]
        · exact ⟨"", by rw [String.append_empty]⟩
      · exact ih _ pr hpr

/-- Nothing picked by the dedup loop bears an already-seen title. -/
theorem dedupByTitle_not_seen (recs : List IndexRecord) (seen : List String) :
    ∀ x ∈ dedupByTitle recs seen, x.doc_title ∉ seen := by
  induction recs generalizing seen with
  | nil => simp [dedupByTitle]
  | cons r rs ih =>
    intro x hx
    by_cases hs : r.doc_title ∈ seen
    · rw [dedupByTitle, if_pos hs] at hx
      exact ih seen x hx
    · rw [dedupByTitle, if_neg hs] at hx
      rcases List.mem_cons.mp hx with rfl | hx2
      · exact hs
      · intro hmem
        exact ih (r.doc_title :: seen) x hx2 (List.mem_cons_of_mem _ hmem)

/-- The titles of the dedup loop's output are pairwise distinct. -/
theorem dedupByTitle_titles_nodup (recs : List IndexRecord) (seen : List String) :
    ((dedupByTitle recs seen).map (fun r => r.doc_title)).Nodup := by
  induction recs generalizing seen with
  | nil => simp [dedupByTitle]
  | cons r rs ih =>
    by_cases hs : r.doc_title ∈ seen
    · rw [dedupByTitle, if_pos hs]
      exact ih seen
    · rw [dedupByTitle, if_neg hs, List.map_cons]
      refine List.nodup_cons.mpr ⟨?_, ih _⟩
      intro hmem
      obtain ⟨x, hx, hex⟩ := List.mem_map.mp hmem
      exact dedupByTitle_not_seen rs (r.doc_title :: seen) x hx
        (hex ▸ List.mem_cons_self _ _)

/-- C2 counterexample: with two candidates of distinct titles, a 6-char
top snippet and budget 5, the walk truncates the first candidate,
exhausts the budget and drops the second — yet the returned source list
still names both titles, so it is not the list of titles of the sections
actually included. -/
theorem build_context_sources_cex :
    (buildContextBlock (SimpleIndex.init (fun v => v) [recA, recB]) ("q")
      (fun _ => [(1 : Int), 0]) 2 5).2 = ["A", "B"] ∧
    (contextSections (SimpleIndex.init (fun v => v) [recA, recB]) ("q")
      (fun _ => [(1 : Int), 0]) 2 5).map (fun pr => pr.1.doc_title) = ["A"] ∧
    (["A", "B"] : List String) ≠ ["A"] := by decide

/-- C2 (amended): the returned source list is the ordered list of distinct
`doc_title`s of all deduplicated candidates, collected before the budget
walk; the titles of the sections actually included form an initial
segment of it, so a candidate dropped by the walk still appears among the
returned sources. -/
theorem build_context_sources_amended (idx : SimpleIndex) (q : String)
    (e : String → List Int) (k : Nat) (B : Int) :
    (buildContextBlock idx q e k B).2 =
      (pickedOf idx q e k).map (fun r => r.doc_title) ∧
    ∃ t, (pickedOf idx q e k).map (fun r => r.doc_title) =
      (contextSections idx q e k B).map (fun pr => pr.1.doc_title) ++ t := by
  constructor
  · unfold buildContextBlock pickedOf
    by_cases hg : idx.size = 0 ∨ pyStrip q = ""
    · rw [if_pos hg, if_pos hg]
      rfl
    · rw [if_neg hg, if_neg hg]
      by_cases hp : dedupByTitle ((searchWithScores idx q e k).1) [] = []
      · rw [if_pos hp, hp]
        rfl
      · rw [if_neg hp]
  · obtain ⟨t, ht⟩ := budgetWalk_fst_decomp (pickedOf idx q e k) B
    refine ⟨t.map (fun r => r.doc_title), ?_⟩
    unfold contextSections
    conv_lhs => rw [ht]
    rw [List.map_append, List.map_map]
    rfl

/-- C3: the sections included by the context assembly have snippet lengths
summing to at most the configured character budget, pairwise distinct
`doc_title`s, and snippets that are initial segments of their records'
texts; the returned block is empty or exactly the header plus the joined
sections; and when the budget is positive the first deduplicated candidate
is always included — untruncated if it fits (even when it exactly exhausts
the budget), truncated to exactly the remaining budget otherwise. -/
theorem assemble_context_budget (idx : SimpleIndex) (q : String)
    (e : String → List Int) (k : Nat) (B : Int) (hB : 0 ≤ B) :
    ((contextSections idx q e k B).map (fun pr => (pr.2.length : Int))).sum ≤ B ∧
    ((contextSections idx q e k B).map (fun pr => pr.1.doc_title)).Nodup ∧
    (∀ pr ∈ contextSections idx q e k B, ∃ t2, pr.1.text = pr.2 ++ t2) ∧
    ((buildContextBlock idx q e k B).1 = "" ∨
      (buildContextBlock idx q e k B).1 =
        "## Context Materials\n\n" ++
          pyJoin ("\n\n---\n\n")
            ((contextSections idx q e k B).map
              (fun pr => sectionOf pr.1 pr.2))) ∧
    (∀ r rest, pickedOf idx q e k = r :: rest → 0 < B →
      ∃ s rest2, contextSections idx q e k B = (r, s) :: rest2 ∧
        ((r.text.length : Int) ≤ B → s = r.text) ∧
        (B < (r.text.length : Int) → (s.length : Int) = B)) := by
  refine ⟨budgetWalk_sum_le _ _ hB, ?_, budgetWalk_snippet_front _ _, ?_, ?_⟩
  · obtain ⟨t, ht⟩ := budgetWalk_fst_decomp (pickedOf idx q e k) B
    have hnd : ((pickedOf idx q e k).map (fun r => r.doc_title)).Nodup := by
      unfold pickedOf
      by_cases hg : idx.size = 0 ∨ pyStrip q = ""
      · rw [if_pos hg]; simp
      · rw [if_neg hg]
        exact dedupByTitle_titles_nodup _ _
    rw [ht, List.map_append] at hnd
    have := hnd.of_append_left
    rw [List.map_map] at this
    exact this
  · unfold buildContextBlock contextSections pickedOf
    by_cases hg : idx.size = 0 ∨ pyStrip q = ""
    · rw [if_pos hg]
      exact Or.inl rfl
    · rw [if_neg hg, if_neg hg]
      by_cases hp : dedupByTitle ((searchWithScores idx q e k).1) [] = []
      · rw [if_pos hp]
        exact Or.inl rfl
      · rw [if_neg hp]
        exact Or.inr rfl
  · intro r rest hpicked hpos
    unfold contextSections
    rw [hpicked]
    simp only [budgetWalk]
    rw [if_neg (by omega : ¬ B ≤ 0)]
    refine ⟨snippetOf r B, _, rfl, ?_, ?_⟩
    · intro hle
      unfold snippetOf
      rw [if_neg (by omega)]
    · intro hgt
      unfold snippetOf
      rw [if_pos (by omega)]
      show ((pyTake r.text B).length : Int) = B
      have : (pyTake r.text B).length = min B.toNat r.text.length := by
        show (r.text.data.take B.toNat).length = min B.toNat r.text.length
        rw [List.length_take]
        rfl
      rw [this]
      have h1 : B.toNat ≤ r.text.length := by omega
      have : min B.toNat r.text.length = B.toNat := Nat.min_eq_left h1
      rw [this]
      exact Int.toNat_of_nonneg hB

/-- Witness for C3 at a concrete two-record index and budget 5. -/
theorem assemble_context_budget_witness :
    ((contextSections (SimpleIndex.init (fun v => v) [recA, recB]) ("q")
      (fun _ => [(1 : Int), 0]) 2 5).map (fun pr => (pr.2.length : Int))).sum ≤ 5 :=
  (assemble_context_budget (SimpleIndex.init (fun v => v) [recA, recB]) ("q")
    (fun _ => [(1 : Int), 0]) 2 5 (by decide)).1

/-! ### Chunk-packing machinery (C1, C5, C10) -/

/-- `curLenOf` over an appended window. -/
theorem curLenOf_append (a b : List String) :
    curLenOf (a ++ b) = curLenOf a + curLenOf b := by
  simp [curLenOf]

/-- `curLenOf` is nonnegative. -/
theorem curLenOf_nonneg (l : List String) : 0 ≤ curLenOf l := by
  induction l with
  | nil => simp [curLenOf]
  | cons s t ih =>
    have hcons : curLenOf (s :: t) = ((s.length : Int) + 1) + curLenOf t := by
      simp [curLenOf]
    omega

/-- `curLenOf` over a singleton window. -/
theorem curLenOf_singleton (s : String) : curLenOf [s] = (s.length : Int) + 1 := by
  simp [curLenOf]

/-- `curLenOf` ignores reversal. -/
theorem curLenOf_reverse (l : List String) : curLenOf l.reverse = curLenOf l := by
  unfold curLenOf
  rw [List.map_reverse, List.sum_reverse]

/-- Length of a newline join: one less than the bookkeeping window length. -/
theorem joinNL_length (l : List String) (h : l ≠ []) :
    ((joinNL l).length : Int) = curLenOf l - 1 := by
  induction l with
  | nil => exact absurd rfl h
  | cons s t ih =>
    cases t with
    | nil =>
      show ((s.length : Nat) : Int) = curLenOf [s] - 1
      rw [curLenOf_singleton]
      omega
    | cons u v =>
      have ih2 := ih (by simp)
      have hj : joinNL (s :: u :: v) = s ++ "\n" ++ joinNL (u :: v) := rfl
      rw [hj, String.length_append, String.length_append]
      have hcons : curLenOf (s :: u :: v) =
          ((s.length : Int) + 1) + curLenOf (u :: v) := by
        simp [curLenOf]
      have hnl : ("\n" : String).length = 1 := rfl
      rw [hnl, hcons]
      push_cast
      push_cast at ih2
      omega

/-- Stripping never lengthens a string. -/
theorem pyStrip_length_le (s : String) : (pyStrip s).length ≤ s.length := by
  show (stripChars s.data).length ≤ s.data.length
  unfold stripChars
  calc ((s.data.dropWhile wsChar).reverse.dropWhile wsChar).reverse.length
      = ((s.data.dropWhile wsChar).reverse.dropWhile wsChar).length :=
        List.length_reverse _
    _ ≤ (s.data.dropWhile wsChar).reverse.length :=
        (List.dropWhile_suffix _).sublist.length_le
    _ = (s.data.dropWhile wsChar).length := List.length_reverse _
    _ ≤ s.data.length := (List.dropWhile_suffix _).sublist.length_le

/-- The carry loop keeps at least one paragraph. -/
theorem carryRev_ne_nil (oc a : Int) (l : List String) (h : l ≠ []) :
    carryRev oc a l ≠ [] := by
  cases l with
  | nil => exact absurd rfl h
  | cons s t =>
    unfold carryRev
    split <;> simp

/-- The carry is an initial segment of the reversed window it walks. -/
theorem carryRev_decomp (oc : Int) (l : List String) :
    ∀ a, ∃ d, l = carryRev oc a l ++ d := by
  induction l with
  | nil => exact fun a => ⟨[], rfl⟩
  | cons s t ih =>
    intro a
    unfold carryRev
    split
    · exact ⟨t, rfl⟩
    · obtain ⟨d, hd⟩ := ih (a + s.length + 1)
      refine ⟨d, ?_⟩
      rw [List.cons_append]
      exact congrArg (s :: ·) hd

/-- Cumulative length bound of the carry loop: the collected overlap stays
below `overlap_chars` plus one paragraph (plus its separator). -/
theorem carryRev_len_le (oc L : Int) (hoc : 0 ≤ oc) (hL : 0 ≤ L) :
    ∀ (l : List String) (a : Int), (∀ x ∈ l, (x.length : Int) ≤ L) →
      0 ≤ a → (a = 0 ∨ a < oc) →
      a + curLenOf (carryRev oc a l) ≤ oc + L + 1 := by
  intro l
  induction l with
  | nil =>
    intro a _ ha hao
    have : curLenOf (carryRev oc a []) = 0 := by simp [carryRev, curLenOf]
    omega
  | cons s t ih =>
    intro a hx ha hao
    have hsL : (s.length : Int) ≤ L := hx s (by simp)
    unfold carryRev
    split
    · next hbreak =>
      rw [curLenOf_singleton]
      omega
    · next hcont =>
      have hns : (0 : Int) ≤ (s.length : Int) := by positivity
      have hrec := ih (a + s.length + 1)
        (fun x hx2 => hx x (List.mem_cons_of_mem _ hx2))
        (by omega) (Or.inr (by omega))
      have hcons : curLenOf (s :: carryRev oc (a + s.length + 1) t) =
          ((s.length : Int) + 1) + curLenOf (carryRev oc (a + s.length + 1) t) := by
        simp [curLenOf]
      omega

/-- Window-length invariant of the packing loop: every flushed chunk's
bookkeeping length stays below `max target_chars (overlap_chars + 2L + 2)`,
where `L` bounds the paragraph lengths. -/
theorem packLoop_mem_len (tc oc L : Int) (hoc : 0 ≤ oc) (hL : 0 ≤ L) :
    ∀ (ps cur : List String), (∀ x ∈ ps, (x.length : Int) ≤ L) →
      (∀ x ∈ cur, (x.length : Int) ≤ L) →
      curLenOf cur ≤ max tc (oc + 2 * L + 2) →
      ∀ c ∈ packLoop tc oc ps cur, curLenOf c ≤ max tc (oc + 2 * L + 2) := by
  intro ps
  induction ps with
  | nil =>
    intro cur _ _ hlen c hc
    unfold packLoop at hc
    split at hc
    · cases hc
    · rw [List.mem_singleton.mp hc]
      exact hlen
  | cons p pt ih =>
    intro cur hps hcur hlen c hc
    have hpL : (p.length : Int) ≤ L := hps p (by simp)
    unfold packLoop at hc
    split at hc
    · next hflush =>
      rcases List.mem_cons.mp hc with rfl | hc2
      · exact hlen
      · refine ih ((carryRev oc 0 cur.reverse).reverse ++ [p])
          (fun x hx => hps x (List.mem_cons_of_mem _ hx)) ?_ ?_ c hc2
        · intro x hx
          rcases List.mem_append.mp hx with hx1 | hx1
          · obtain ⟨d, hd⟩ := carryRev_decomp oc cur.reverse 0
            have hxrev : x ∈ cur.reverse := by
              rw [hd]
              exact List.mem_append_left _ (List.mem_reverse.mp hx1)
            exact hcur x (List.mem_reverse.mp hxrev)
          · rw [List.mem_singleton.mp hx1]
            exact hpL
        · rw [curLenOf_append, curLenOf_singleton, curLenOf_reverse]
          have hcarry := carryRev_len_le oc L hoc hL cur.reverse 0
            (fun x hx => hcur x (List.mem_reverse.mp hx))
            le_rfl (Or.inl rfl)
          have h1 : oc + 2 * L + 2 ≤ max tc (oc + 2 * L + 2) := le_max_right _ _
          omega
    · next hnoflush =>
      push_neg at hnoflush
      refine ih (cur ++ [p])
        (fun x hx => hps x (List.mem_cons_of_mem _ hx)) ?_ ?_ c hc
      · intro x hx
        rcases List.mem_append.mp hx with hx1 | hx1
        · exact hcur x hx1
        · rw [List.mem_singleton.mp hx1]
          exact hpL
      · rw [curLenOf_append, curLenOf_singleton]
        by_cases hce : cur = []
        · subst hce
          have h0 : curLenOf ([] : List String) = 0 := by simp [curLenOf]
          have h1 : oc + 2 * L + 2 ≤ max tc (oc + 2 * L + 2) := le_max_right _ _
          omega
        · have hle := hnoflush hce
          have h1 : tc ≤ max tc (oc + 2 * L + 2) := le_max_left _ _
          omega

/-- Every chunk flushed by the packing loop is nonempty and a contiguous
run of the original paragraph list. -/
theorem packLoop_runs (tc oc : Int) (parts : List String) :
    ∀ (ps cur pre : List String), pre ++ cur ++ ps = parts →
      ∀ c ∈ packLoop tc oc ps cur,
        c ≠ [] ∧ ∃ p2 s2, p2 ++ c ++ s2 = parts := by
  intro ps
  induction ps with
  | nil =>
    intro cur pre happ c hc
    unfold packLoop at hc
    split at hc
    · cases hc
    · next hne =>
      rw [List.mem_singleton.mp hc]
      refine ⟨?_, pre, [], ?_⟩
      · intro h
        rw [h] at hne
        simp at hne
      · exact happ
  | cons p pt ih =>
    intro cur pre happ c hc
    unfold packLoop at hc
    split at hc
    · next hflush =>
      rcases List.mem_cons.mp hc with rfl | hc2
      · exact ⟨hflush.1, pre, p :: pt, happ⟩
      · obtain ⟨d, hd⟩ := carryRev_decomp oc cur.reverse 0
        set ncur := (carryRev oc 0 cur.reverse).reverse with hncur
        have hcur_eq : cur = d.reverse ++ ncur := by
          have h2 := congrArg List.reverse hd
          rw [List.reverse_reverse, List.reverse_append] at h2
          exact h2
        refine ih (ncur ++ [p]) (pre ++ d.reverse) ?_ c hc2
        rw [← happ]
        conv_rhs => rw [hcur_eq]
        simp [List.append_assoc]
    · next hnof =>
      refine ih (cur ++ [p]) pre ?_ c hc
      rw [← happ]
      simp [List.append_assoc]

/-- The head chunk produced from a nonempty window extends that window. -/
theorem packLoop_head_extends (tc oc : Int) :
    ∀ (ps cur : List String), cur ≠ [] →
      ∃ ext rest, packLoop tc oc ps cur = (cur ++ ext) :: rest := by
  intro ps
  induction ps with
  | nil =>
    intro cur h
    cases cur with
    | nil => exact absurd rfl h
    | cons a t =>
      refine ⟨[], [], ?_⟩
      rw [List.append_nil]
      rfl
  | cons p pt ih =>
    intro cur h
    by_cases hf : cur ≠ [] ∧ curLenOf cur + p.length + 1 > tc
    · refine ⟨[], packLoop tc oc pt ((carryRev oc 0 cur.reverse).reverse ++ [p]), ?_⟩
      rw [List.append_nil]
      simp only [packLoop]
      rw [if_pos hf]
    · obtain ⟨ext, rest, hrec⟩ := ih (cur ++ [p]) (by simp)
      refine ⟨[p] ++ ext, rest, ?_⟩
      simp only [packLoop]
      rw [if_neg hf, hrec, List.append_assoc]

/-- Consecutive chunks of the packing loop share a nonempty block of
paragraphs: a suffix of the earlier chunk is a prefix of the later one
(the carried overlap). -/
theorem packLoop_chain (tc oc : Int) :
    ∀ (ps cur : List String),
      List.Chain'
        (fun c1 c2 => ∃ s, s ≠ [] ∧ (∃ d, c1 = d ++ s) ∧ ∃ e2, c2 = s ++ e2)
        (packLoop tc oc ps cur) := by
  intro ps
  induction ps with
  | nil =>
    intro cur
    unfold packLoop
    split
    · exact List.chain'_nil
    · exact List.chain'_singleton _
  | cons p pt ih =>
    intro cur
    simp only [packLoop]
    split
    · next hf =>
      have hne : (carryRev oc 0 cur.reverse).reverse ++ [p] ≠ [] := by simp
      obtain ⟨ext, rest, hrec⟩ := packLoop_head_extends tc oc pt _ hne
      rw [hrec]
      refine List.chain'_cons.mpr ⟨?_, ?_⟩
      · refine ⟨(carryRev oc 0 cur.reverse).reverse, ?_, ?_, ?_⟩
        · have : carryRev oc 0 cur.reverse ≠ [] := by
            apply carryRev_ne_nil
            simp [hf.1]
          simpa using this
        · obtain ⟨d, hd⟩ := carryRev_decomp oc cur.reverse 0
          refine ⟨d.reverse, ?_⟩
          have h2 := congrArg List.reverse hd
          rw [List.reverse_reverse, List.reverse_append] at h2
          exact h2
        · exact ⟨[p] ++ ext, by rw [List.append_assoc]⟩
      · rw [← hrec]
        exact ih _
    · exact ih _

/-! ### C10 -/

/-- C10 counterexample: with a paragraph carrying trailing whitespace, the
returned chunk is the *strip* of the join, which equals no newline-join of
a contiguous run of the input paragraphs. -/
theorem pack_chunks_contiguous_run_cex :
    pack_chunks [("a ")] 1000 120 = ["a"] ∧
    ¬ ∃ run : List String, run ≠ [] ∧
        (∃ pre suf, pre ++ run ++ suf = [("a ")]) ∧ ("a") = joinNL run := by
  constructor
  · decide
  · rintro ⟨run, hne, ⟨pre, suf, happ⟩, heq⟩
    have hlen := congrArg List.length happ
    simp only [List.length_append, List.length_singleton] at hlen
    have hrpos : 0 < run.length := List.length_pos.mpr hne
    have hpre : pre.length = 0 := by omega
    have hsuf : suf.length = 0 := by omega
    have hrun1 : run.length = 1 := by omega
    obtain ⟨x, hx⟩ := List.length_eq_one.mp hrun1
    rw [List.length_eq_zero] at hpre hsuf
    subst hpre hsuf hx
    simp only [List.nil_append, List.append_nil, List.cons.injEq, and_true] at happ
    subst happ
    exact (by decide : ("a" : String) ≠ ("a ")) heq

/-- C10 (amended): every chunk returned by `pack_chunks` is the Python
`strip()` of the newline-join of a nonempty contiguous run of the input
paragraphs, in their original order (so chunks never reorder, repeat or
interleave paragraphs; the final `strip` may only trim boundary whitespace
of the join). -/
theorem pack_chunks_contiguous_run_amended (parts : List String) (t o : Int) :
    ∀ c ∈ pack_chunks parts t o,
      ∃ run, run ≠ [] ∧ (∃ pre suf, pre ++ run ++ suf = parts) ∧
        c = pyStrip (joinNL run) := by
  intro c hc
  unfold pack_chunks at hc
  obtain ⟨hmem, hne0⟩ := List.mem_filter.mp hc
  obtain ⟨ch, hch, rfl⟩ := List.mem_map.mp hmem
  obtain ⟨hne, p2, s2, hps⟩ :=
    packLoop_runs (max 200 (t * CHARS_PER_TOKEN))
      (max 0 (o * CHARS_PER_TOKEN)) parts parts [] [] (by simp) ch hch
  exact ⟨ch, hne, ⟨p2, s2, hps⟩, rfl⟩

/-- Witness for C10 (amended) on a one-paragraph input. -/
theorem pack_chunks_contiguous_run_amended_witness :
    ∃ run, run ≠ [] ∧ (∃ pre suf, pre ++ run ++ suf = [("ab")]) ∧
      ("ab") = pyStrip (joinNL run) :=
  pack_chunks_contiguous_run_amended [("ab")] 0 0 ("ab") (by decide)

/-! ### C1 -/

/-- C1 counterexample: with `target_tokens = 50` (window `max 200 200 =
200` chars) and `overlap_tokens = 0`, three paragraphs of 100, 100 and 10
`a`s produce a middle chunk of 201 characters — beyond the bound — that is
the join of *two* paragraphs, each of which is far below the bound, so the
oversized-paragraph passthrough does not excuse it.  (After a flush the
carried overlap plus the next paragraph is appended without re-checking the
bound.) -/
theorem pack_chunks_target_bound_cex :
    (pack_chunks parts100 50 0).length = 3 ∧
    ((pack_chunks parts100 50 0).getD 1 "").length = 201 ∧
    max 200 (50 * 4) = (200 : Int) ∧
    (∀ p ∈ parts100, p.length ≤ 200 ∧
      (pack_chunks parts100 50 0).getD 1 "" ≠ p) := by
  decide

/-- C1 (amended): a returned chunk can exceed `max(200, targetTokens*4)`
also when it is the carried overlap plus one following paragraph; in
general every chunk's length is bounded by
`max (max 200 (targetTokens*4)) (max 0 (overlapTokens*4) + 2L + 1)` where
`L` bounds the input paragraph lengths (multi-paragraph chunks within one
window never exceed `max 200 (targetTokens*4)` — only the unchecked
carry-plus-paragraph reseed can). -/
theorem pack_chunks_length_bound_amended (parts : List String) (t o : Int)
    (L : Int) (hL0 : 0 ≤ L) (hL : ∀ p ∈ parts, (p.length : Int) ≤ L) :
    ∀ c ∈ pack_chunks parts t o,
      (c.length : Int) ≤ max (max 200 (t * 4)) (max 0 (o * 4) + 2 * L + 1) := by
  intro c hc
  unfold pack_chunks at hc
  obtain ⟨hmem, hne0⟩ := List.mem_filter.mp hc
  obtain ⟨ch, hch, rfl⟩ := List.mem_map.mp hmem
  have hinit : curLenOf [] ≤
      max (max 200 (t * CHARS_PER_TOKEN))
        (max 0 (o * CHARS_PER_TOKEN) + 2 * L + 2) := by
    have h200 : (200 : Int) ≤ max 200 (t * CHARS_PER_TOKEN) := le_max_left _ _
    have hmax1 : max 200 (t * CHARS_PER_TOKEN) ≤
        max (max 200 (t * CHARS_PER_TOKEN))
          (max 0 (o * CHARS_PER_TOKEN) + 2 * L + 2) := le_max_left _ _
    have hnil : curLenOf [] = 0 := by simp [curLenOf]
    omega
  have hinv := packLoop_mem_len (max 200 (t * CHARS_PER_TOKEN))
    (max 0 (o * CHARS_PER_TOKEN)) L (le_max_left 0 _) hL0 parts [] hL
    (by intro x hx; cases hx) hinit ch hch
  obtain ⟨hne, -, -, -⟩ :=
    packLoop_runs (max 200 (t * CHARS_PER_TOKEN))
      (max 0 (o * CHARS_PER_TOKEN)) parts parts [] [] (by simp) ch hch
  have hJ := joinNL_length ch hne
  have hstrip' : ((pyStrip (joinNL ch)).length : Int) ≤
      ((joinNL ch).length : Int) := by
    exact_mod_cast pyStrip_length_le (joinNL ch)
  have e1 : max 200 (t * CHARS_PER_TOKEN) = max 200 (t * 4) := rfl
  have e2 : max 0 (o * CHARS_PER_TOKEN) = max 0 (o * 4) := rfl
  rw [e1, e2] at hinv
  have hA : max 200 (t * 4) ≤
      max (max 200 (t * 4)) (max 0 (o * 4) + 2 * L + 1) := le_max_left _ _
  have hB : max 0 (o * 4) + 2 * L + 1 ≤
      max (max 200 (t * 4)) (max 0 (o * 4) + 2 * L + 1) := le_max_right _ _
  rcases max_choice (max 200 (t * 4)) (max 0 (o * 4) + 2 * L + 2) with hm | hm <;>
    omega

/-- Witness for C1 (amended) at the concrete chunk packed from two tiny
paragraphs. -/
theorem pack_chunks_length_bound_amended_witness :
    ("ab\nc" : String) ∈ pack_chunks [("ab"), ("c")] 0 0 ∧
    ((("ab\nc" : String).length : Nat) : Int) ≤
      max (max 200 (0 * 4)) (max 0 (0 * 4) + 2 * 2 + 1) :=
  ⟨by decide,
   pack_chunks_length_bound_amended [("ab"), ("c")] 0 0 2 (by decide)
     (by decide) ("ab\nc") (by decide)⟩

/-! ### C5: overlap of consecutive chunks -/

/-- A string is nonempty iff its data is. -/
theorem str_ne_empty_iff_data (s : String) : s ≠ "" ↔ s.data ≠ [] := by
  cases s with
  | _ d =>
    constructor
    · intro h hd
      exact h (by subst hd; rfl)
    · intro h he
      exact h (congrArg String.data he)

/-- If `dropWhile` removes nothing from a nonempty list, its head fails the
predicate. -/
theorem head_not_ws_of_dropWhile_eq (c : Char) (t : List Char)
    (h : (c :: t).dropWhile wsChar = c :: t) : wsChar c = false := by
  by_contra hc
  have hc' : wsChar c = true := by
    cases hmm : wsChar c with
    | false => exact absurd hmm hc
    | true => rfl
  rw [List.dropWhile_cons, if_pos hc'] at h
  have hlen := congrArg List.length h
  have hle : (t.dropWhile wsChar).length ≤ t.length :=
    (List.dropWhile_suffix _).sublist.length_le
  simp only [List.length_cons] at hlen
  omega

/-- A strip fixed point drops nothing from either end. -/
theorem stripChars_fix_parts (l : List Char) (h : stripChars l = l) :
    l.dropWhile wsChar = l ∧ l.reverse.dropWhile wsChar = l.reverse := by
  have hlen := congrArg List.length h
  unfold stripChars at hlen
  rw [List.length_reverse] at hlen
  have le1 : ((l.dropWhile wsChar).reverse.dropWhile wsChar).length ≤
      (l.dropWhile wsChar).reverse.length :=
    (List.dropWhile_suffix _).sublist.length_le
  rw [List.length_reverse] at le1
  have le2 : (l.dropWhile wsChar).length ≤ l.length :=
    (List.dropWhile_suffix _).sublist.length_le
  have e2 : (l.dropWhile wsChar).length = l.length := by omega
  have h1 : l.dropWhile wsChar = l :=
    (List.dropWhile_suffix wsChar).eq_of_length e2
  refine ⟨h1, ?_⟩
  unfold stripChars at h
  rw [h1] at h
  have h2 := congrArg List.reverse h
  rw [List.reverse_reverse] at h2
  exact h2

/-- A nonempty paragraph fixed by `strip()` has non-whitespace boundary
characters. -/
theorem clean_head_last (p : String) (h1 : p ≠ "") (h2 : pyStrip p = p) :
    p.data ≠ [] ∧ wsChar (p.data.headD ' ') = false ∧
      wsChar (p.data.reverse.headD ' ') = false := by
  have hd : p.data ≠ [] := (str_ne_empty_iff_data p).mp h1
  have hfix : stripChars p.data = p.data := congrArg String.data h2
  obtain ⟨hl, hr⟩ := stripChars_fix_parts _ hfix
  refine ⟨hd, ?_, ?_⟩
  · cases hdata : p.data with
    | nil => exact absurd hdata hd
    | cons c t =>
      rw [List.headD_cons]
      exact head_not_ws_of_dropWhile_eq c t (hdata ▸ hl)
  · cases hrev : p.data.reverse with
    | nil => exact absurd (List.reverse_eq_nil_iff.mp hrev) hd
    | cons c2 t2 =>
      rw [List.headD_cons]
      exact head_not_ws_of_dropWhile_eq c2 t2 (hrev ▸ hr)

/-- The newline join of nonempty strip-fixed paragraphs is nonempty with
non-whitespace boundary characters. -/
theorem joinNL_clean : ∀ (run : List String), run ≠ [] →
    (∀ p ∈ run, p ≠ "" ∧ pyStrip p = p) →
    (joinNL run).data ≠ [] ∧
    wsChar ((joinNL run).data.headD ' ') = false ∧
    wsChar ((joinNL run).data.reverse.headD ' ') = false := by
  intro run
  induction run with
  | nil => intro h; exact absurd rfl h
  | cons s rest ih =>
    intro _ hc
    obtain ⟨hs1, hs2⟩ := hc s (by simp)
    obtain ⟨hsd, hsh, hsr⟩ := clean_head_last s hs1 hs2
    cases rest with
    | nil => exact ⟨hsd, hsh, hsr⟩
    | cons u v =>
      obtain ⟨hjd, hjh, hjr⟩ := ih (by simp)
        (fun p hp => hc p (List.mem_cons_of_mem _ hp))
      have hdata : (joinNL (s :: u :: v)).data =
          (s.data ++ ['\n']) ++ (joinNL (u :: v)).data := rfl
      obtain ⟨c, t, hst⟩ : ∃ c t, s.data = c :: t := by
        cases hsd2 : s.data with
        | nil => exact absurd hsd2 hsd
        | cons c t => exact ⟨c, t, rfl⟩
      refine ⟨?_, ?_, ?_⟩
      · rw [hdata, hst]
        simp
      · rw [hdata, hst]
        simp only [List.cons_append, List.headD_cons]
        rw [hst, List.headD_cons] at hsh
        exact hsh
      · rw [hdata, List.reverse_append]
        obtain ⟨c2, t2, hjrev⟩ :
            ∃ c2 t2, (joinNL (u :: v)).data.reverse = c2 :: t2 := by
          cases hx : (joinNL (u :: v)).data.reverse with
          | nil => exact absurd (List.reverse_eq_nil_iff.mp hx) hjd
          | cons c2 t2 => exact ⟨c2, t2, rfl⟩
        rw [hjrev]
        simp only [List.cons_append, List.headD_cons]
        rw [hjrev, List.headD_cons] at hjr
        exact hjr

/-- For strip-fixed nonempty paragraphs the final per-chunk `strip()` is the
identity and the joined chunk is nonempty. -/
theorem clean_strip_join (run : List String) (hne : run ≠ [])
    (hc : ∀ p ∈ run, p ≠ "" ∧ pyStrip p = p) :
    pyStrip (joinNL run) = joinNL run ∧ joinNL run ≠ "" := by
  obtain ⟨hne', hh, hr⟩ := joinNL_clean run hne hc
  obtain ⟨c, t, hd⟩ : ∃ c t, (joinNL run).data = c :: t := by
    cases hx : (joinNL run).data with
    | nil => exact absurd hx hne'
    | cons c t => exact ⟨c, t, rfl⟩
  obtain ⟨c2, t2, hd2⟩ : ∃ c2 t2, (joinNL run).data.reverse = c2 :: t2 := by
    cases hx : (joinNL run).data.reverse with
    | nil => exact absurd (List.reverse_eq_nil_iff.mp hx) hne'
    | cons c2 t2 => exact ⟨c2, t2, rfl⟩
  have hwc : wsChar c = false := by
    rw [hd, List.headD_cons] at hh
    exact hh
  have hwc2 : wsChar c2 = false := by
    rw [hd2, List.headD_cons] at hr
    exact hr
  constructor
  · apply str_data_inj
    show stripChars (joinNL run).data = (joinNL run).data
    have h1 : (joinNL run).data.dropWhile wsChar = (joinNL run).data := by
      rw [hd, List.dropWhile_cons, if_neg (by simp [hwc])]
    have h2 : (joinNL run).data.reverse.dropWhile wsChar =
        (joinNL run).data.reverse := by
      rw [hd2, List.dropWhile_cons, if_neg (by simp [hwc2])]
    unfold stripChars
    rw [h1, h2, List.reverse_reverse]
  · intro he
    exact hne' (by rw [he])

/-- For strip-fixed nonempty paragraphs, `pack_chunks` returns exactly the
newline joins of the structured chunks (no chunk is trimmed or dropped). -/
theorem pack_chunks_eq_joins (parts : List String) (t o : Int)
    (hclean : ∀ p ∈ parts, p ≠ "" ∧ pyStrip p = p) :
    pack_chunks parts t o =
      (packLoop (max 200 (t * CHARS_PER_TOKEN))
        (max 0 (o * CHARS_PER_TOKEN)) parts []).map joinNL := by
  unfold pack_chunks
  have hAll : ∀ c ∈ packLoop (max 200 (t * CHARS_PER_TOKEN))
      (max 0 (o * CHARS_PER_TOKEN)) parts [],
      pyStrip (joinNL c) = joinNL c ∧ joinNL c ≠ "" := by
    intro c hcmem
    obtain ⟨hcne, p2, s2, hps⟩ :=
      packLoop_runs _ _ parts parts [] [] (by simp) c hcmem
    apply clean_strip_join c hcne
    intro p hp
    apply hclean
    rw [← hps]
    exact List.mem_append_left _ (List.mem_append_right _ hp)
  rw [List.map_congr_left (fun c hcm => (hAll c hcm).1)]
  apply List.filter_eq_self.mpr
  intro a ha
  obtain ⟨c, hcm, rfl⟩ := List.mem_map.mp ha
  simpa using (hAll c hcm).2

/-- C5: for whitespace-clean nonempty paragraphs (as `split_paragraphs`
produces), any two consecutive chunks returned by `pack_chunks` are newline
joins of paragraph runs sharing a nonempty common block — a suffix of the
first chunk's paragraphs is a prefix of the second's — for every
`overlapTokens`, including zero and negative values. -/
theorem pack_chunks_overlap_consecutive (parts : List String) (t o : Int)
    (hclean : ∀ p ∈ parts, p ≠ "" ∧ pyStrip p = p) :
    ∀ i, i + 1 < (pack_chunks parts t o).length →
      ∃ l1 l2 s, s ≠ [] ∧ (∃ d, l1 = d ++ s) ∧ (∃ e2, l2 = s ++ e2) ∧
        (pack_chunks parts t o).getD i "" = joinNL l1 ∧
        (pack_chunks parts t o).getD (i + 1) "" = joinNL l2 := by
  intro i hi
  rw [pack_chunks_eq_joins parts t o hclean] at hi ⊢
  rw [List.length_map] at hi
  have hchain := packLoop_chain (max 200 (t * CHARS_PER_TOKEN))
    (max 0 (o * CHARS_PER_TOKEN)) parts []
  rw [List.chain'_iff_get] at hchain
  obtain ⟨s, hs, hd, he⟩ := hchain i (by omega)
  refine ⟨(packLoop (max 200 (t * CHARS_PER_TOKEN))
      (max 0 (o * CHARS_PER_TOKEN)) parts []).get ⟨i, by omega⟩,
    (packLoop (max 200 (t * CHARS_PER_TOKEN))
      (max 0 (o * CHARS_PER_TOKEN)) parts []).get ⟨i + 1, hi⟩,
    s, hs, hd, he, ?_, ?_⟩
  · rw [List.getD_eq_getElem _ _ (by rw [List.length_map]; omega)]
    rw [List.getElem_map]
    rfl
  · rw [List.getD_eq_getElem _ _ (by rw [List.length_map]; omega)]
    rw [List.getElem_map]
    rfl

/-- Witness for C5 on the three clean paragraphs of `parts100` (three
chunks; the first two share the middle paragraph). -/
theorem pack_chunks_overlap_consecutive_witness :
    ∃ l1 l2 s, s ≠ [] ∧ (∃ d, l1 = d ++ s) ∧ (∃ e2, l2 = s ++ e2) ∧
      (pack_chunks parts100 50 0).getD 0 "" = joinNL l1 ∧
      (pack_chunks parts100 50 0).getD 1 "" = joinNL l2 :=
  pack_chunks_overlap_consecutive parts100 50 0 (by decide) 0 (by decide)

/-! ### C6: top-k cosine search -/

/-- C6: on a nonempty index, `search_with_scores` returns exactly
`min(topK, size)` records and scores, the scores sorted in descending
order, and every returned score at least the score of every record whose
index was not selected (ordering among exact ties is not asserted; the
model breaks ties by original index, one behaviour permitted by
`np.argpartition`/`np.argsort`). -/
theorem search_topk_sorted_dominant (l2n : List Int → List Int)
    (recs : List IndexRecord) (embedQ : String → List Int) (query : String)
    (k : Nat) (h : recs ≠ []) :
    (searchWithScores (SimpleIndex.init l2n recs) query embedQ k).1.length =
      min k recs.length ∧
    (searchWithScores (SimpleIndex.init l2n recs) query embedQ k).2.length =
      min k recs.length ∧
    List.Sorted (fun a b : Int => b ≤ a)
      (searchWithScores (SimpleIndex.init l2n recs) query embedQ k).2 ∧
    (∀ s ∈ (searchWithScores (SimpleIndex.init l2n recs) query embedQ k).2,
      ∀ j, j < recs.length →
        j ∉ topKIdx (simsOf (SimpleIndex.init l2n recs).mat (embedQ query))
              (min k recs.length) →
        (simsOf (SimpleIndex.init l2n recs).mat (embedQ query)).getD j 0 ≤ s) := by
  have hmatlen : (SimpleIndex.init l2n recs).mat.length = recs.length := by
    simp [SimpleIndex.init]
  have hsimlen :
      (simsOf (SimpleIndex.init l2n recs).mat (embedQ query)).length =
        recs.length := by
    simp [simsOf, hmatlen]
  have hguard : ¬ ((SimpleIndex.init l2n recs).mat.length = 0) := by
    rw [hmatlen]
    simpa [List.length_eq_zero] using h
  unfold searchWithScores
  rw [if_neg hguard, ← hsimlen]
  set sims := simsOf (SimpleIndex.init l2n recs).mat (embedQ query) with hsims
  set sorted := List.insertionSort (rankRel sims) (List.range sims.length)
    with hsortdef
  have hperm : List.Perm sorted (List.range sims.length) :=
    List.perm_insertionSort _ _
  have hsortedlen : sorted.length = sims.length := by
    rw [hperm.length_eq, List.length_range]
  have hpair : List.Pairwise (rankRel sims) sorted :=
    List.sorted_insertionSort _ _
  have htklen : (topKIdx sims (min k sims.length)).length = min k sims.length := by
    show ((sorted).take (min k sims.length)).length = min k sims.length
    rw [List.length_take, hsortedlen, Nat.min_assoc, Nat.min_self]
  refine ⟨?_, ?_, ?_, ?_⟩
  · rw [List.length_map, htklen]
  · rw [List.length_map, htklen]
  · have htake : List.Pairwise (rankRel sims) (sorted.take (min k sims.length)) :=
      hpair.sublist (List.take_sublist _ _)
    exact htake.map _ (fun a b hab => by
      rcases hab with h1 | ⟨h2, _⟩
      · exact le_of_lt h1
      · exact le_of_eq h2.symm)
  · intro s hs j hj hnot
    obtain ⟨i, hi_mem, rfl⟩ := List.mem_map.mp hs
    have hjr : j ∈ List.range sims.length := List.mem_range.mpr (by omega)
    have hjs : j ∈ sorted := hperm.mem_iff.mpr hjr
    have hjsplit : j ∈ sorted.take (min k sims.length) ++
        sorted.drop (min k sims.length) := by
      rw [List.take_append_drop]
      exact hjs
    have hjd : j ∈ sorted.drop (min k sims.length) := by
      rcases List.mem_append.mp hjsplit with hx | hx
      · exact absurd hx hnot
      · exact hx
    have hsplit := hpair
    rw [← List.take_append_drop (min k sims.length) sorted] at hsplit
    obtain ⟨-, -, hcross⟩ := List.pairwise_append.mp hsplit
    rcases hcross i hi_mem j hjd with h1 | ⟨h2, -⟩
    · exact le_of_lt h1
    · exact le_of_eq h2.symm

/-- Witness for C6 on a concrete two-record index with `topK = 1`. -/
theorem search_topk_sorted_dominant_witness :
    (searchWithScores (SimpleIndex.init (fun v => v) [recA, recB]) ("q")
      (fun _ => [(1 : Int), 0]) 1).1.length = min 1 [recA, recB].length :=
  (search_topk_sorted_dominant (fun v => v) [recA, recB]
    (fun _ => [(1 : Int), 0]) ("q") 1 (by decide)).1
